import Mathlib

/-!
# avr-baremetal: the blink firmware (`src/main.c`)

A shallow embedding of `main`:

```c
int main(void) {
    DDRB |= (1 << PORTB5);
    while (1)
    {
        PORTB ^= (1 << PORTB5);
        _delay_ms(1000);
    }
}
```

The two memory-mapped registers are 8-bit (`volatile uint8_t`); they are kept as
natural numbers and every compound assignment truncates its result with `% 256`,
as the conversion back to `uint8_t` does after integer promotion.
The program is given a small-step semantics over program points (`step`, `run`)
and a big-step reading of one loop iteration (`loopBody`); the two are related by
`run_loopAfter`.
-/

namespace AvrBlink

/-! ## Data model -/

/-- Modelled from the spec: the bit index of the designated pin. `PORTB5` is a macro of
`avr/io.h`, which is not among the source files; the pin is bit 5 of port B. -/
def PORTB5 : Nat := 5

/-- The two I/O registers `main` touches: data direction and data register of port B. -/
structure State where
  DDRB : Nat
  PORTB : Nat
deriving DecidableEq, Repr

/-- Both registers hold 8-bit values. -/
def State.wf (s : State) : Prop := s.DDRB < 256 ∧ s.PORTB < 256

instance (s : State) : Decidable s.wf := by
  unfold State.wf; exact inferInstance

/-- Level of the pin: bit `PORTB5` of `PORTB`. -/
def level (s : State) : Bool := s.PORTB.testBit PORTB5

/-- Direction of the pin is output: bit `PORTB5` of `DDRB` is set. -/
def isOutput (s : State) : Bool := s.DDRB.testBit PORTB5

/-- Observable effects of the statements of `main`. -/
inductive Effect where
  /-- Statement `DDRB |= (1 << bit)`. -/
  | setOutput (bit : Nat)
  /-- Statement `PORTB ^= (1 << bit)`. -/
  | toggle (bit : Nat)
  /-- Call `_delay_ms(ms)`. -/
  | delay (ms : Nat)
deriving DecidableEq, Repr

/-- An effect stamped with the virtual time (ms) at which its statement starts. -/
structure Event where
  time : Nat
  eff : Effect
deriving DecidableEq, Repr

/-- Program points of `main`. -/
inductive Pc where
  /-- Line 6, `DDRB |= (1 << PORTB5);` -/
  | init
  /-- Line 9, the test of `while (1)` -/
  | loopTest
  /-- Line 12, `PORTB ^= (1 << PORTB5);` -/
  | toggle
  /-- Line 15, `_delay_ms(1000);` -/
  | delay
  /-- Line 17, past the loop: `main` returns -/
  | exit
deriving DecidableEq, Repr

/-- Configuration of the machine: program point, registers, virtual clock (ms) and the
effects performed so far, oldest first. -/
structure Config where
  pc : Pc
  regs : State
  clock : Nat
  trace : List Event
deriving DecidableEq, Repr

/-! ## Statements -/

/-- The statement `DDRB |= (1 << PORTB5);` on the registers. -/
def initDDRB (s : State) : State :=
  { s with DDRB := (s.DDRB ||| (1 <<< PORTB5)) % 256 }

/-- The statement `PORTB ^= (1 << PORTB5);` on the registers. -/
def togglePORTB (s : State) : State :=
  { s with PORTB := (s.PORTB ^^^ (1 <<< PORTB5)) % 256 }

/-- Modelled from the spec: the busy-wait primitive `_delay_ms` of `util/delay.h`, which is
not among the source files. It blocks for `ms` milliseconds: the virtual clock advances by
exactly its argument and nothing else changes. -/
def _delay_ms (ms : Nat) (clock : Nat) : Nat := clock + ms

/-- The condition of `while (1)`. -/
def loopCond : Nat := 1

/-- Line 6 on a configuration: the direction write, taking no time. -/
def doInit (c : Config) : Config :=
  { pc := Pc.loopTest, regs := initDDRB c.regs, clock := c.clock,
    trace := c.trace ++ [⟨c.clock, Effect.setOutput PORTB5⟩] }

/-- Line 12 on a configuration: the toggle, taking no time. -/
def doToggle (c : Config) : Config :=
  { pc := Pc.delay, regs := togglePORTB c.regs, clock := c.clock,
    trace := c.trace ++ [⟨c.clock, Effect.toggle PORTB5⟩] }

/-- Line 15 on a configuration, with delay argument `d` (`d = 1000` in `main`). -/
def doDelay (d : Nat) (c : Config) : Config :=
  { pc := Pc.loopTest, regs := c.regs, clock := _delay_ms d c.clock,
    trace := c.trace ++ [⟨c.clock, Effect.delay d⟩] }

/-! ## Small-step semantics -/

/-- One statement of `main`, the delay argument being `d`; `none` once `main` has returned. -/
def step (d : Nat) (c : Config) : Option Config :=
  match c.pc with
  | Pc.init => some (doInit c)
  | Pc.loopTest => if loopCond ≠ 0 then some { c with pc := Pc.toggle }
                   else some { c with pc := Pc.exit }
  | Pc.toggle => some (doToggle c)
  | Pc.delay => some (doDelay d c)
  | Pc.exit => none

/-- At most `fuel` steps; `none` when the program halted before the fuel ran out. -/
def run (d : Nat) : Nat → Config → Option Config
  | 0, c => some c
  | fuel + 1, c => (step d c).bind (run d fuel)

/-- Entry of `main` with the registers as the hardware left them. -/
def boot (s : State) : Config :=
  { pc := Pc.init, regs := s, clock := 0, trace := [] }

/-- The program `main` (delay argument 1000) run for `fuel` statements. -/
def main (s : State) (fuel : Nat) : Option Config := run 1000 fuel (boot s)

/-! ## Big-step reading of the loop -/

/-- One iteration of the loop, from the loop head back to it: toggle, then delay. -/
def loopBody (d : Nat) (c : Config) : Config := doDelay d (doToggle c)

/-- The configuration right after the initialization statement. -/
def afterInit (s : State) : Config := doInit (boot s)

/-- The configuration after initialization and `n` iterations with delay argument `d`. -/
def loopAfter (d n : Nat) (s : State) : Config := (loopBody d)^[n] (afterInit s)

/-- The configuration after initialization and `n` iterations of the loop of `main`. -/
def mainLoop (n : Nat) (s : State) : Config := loopAfter 1000 n s

/-- Effects of a trace, without their time stamps. -/
def effects (t : List Event) : List Effect := t.map Event.eff

/-- Whether an event is a toggle of the pin. -/
def isToggle (e : Event) : Bool :=
  match e.eff with
  | Effect.toggle _ => true
  | _ => false

/-- Times at which the toggles of a trace happened, oldest first. -/
def toggleTimes (t : List Event) : List Nat := (t.filter isToggle).map Event.time

/-- Levels of the pin read at the loop head after `0, 1, ..., n` iterations of `main`. -/
def levels (n : Nat) (s : State) : List Bool :=
  (List.range (n + 1)).map (fun k => level (mainLoop k s).regs)

/-- Configurations inside the program after the initialization: the program point is in
the loop and the pin is an output. -/
def Running (c : Config) : Prop :=
  (c.pc = Pc.loopTest ∨ c.pc = Pc.toggle ∨ c.pc = Pc.delay) ∧ isOutput c.regs = true

/-! ## Bit-level facts -/

theorem testBit_or_mask (v i : Nat) :
    ((v ||| (1 <<< PORTB5)) % 256).testBit i = (decide (i < 8) && (v.testBit i || decide (i = 5))) := by
  have h : (256 : Nat) = 2 ^ 8 := by norm_num
  rw [h, Nat.testBit_mod_two_pow, Nat.testBit_or, Nat.one_shiftLeft, Nat.testBit_two_pow]
  simp [PORTB5, eq_comm]

theorem testBit_xor_mask (v i : Nat) :
    ((v ^^^ (1 <<< PORTB5)) % 256).testBit i = (decide (i < 8) && (xor (v.testBit i) (decide (i = 5)))) := by
  have h : (256 : Nat) = 2 ^ 8 := by norm_num
  rw [h, Nat.testBit_mod_two_pow, Nat.testBit_xor, Nat.one_shiftLeft, Nat.testBit_two_pow]
  simp [PORTB5, eq_comm]

theorem or_mask_lt (v : Nat) : (v ||| (1 <<< PORTB5)) % 256 < 256 :=
  Nat.mod_lt _ (by decide)

theorem or_mask_of_lt (v : Nat) (h : v < 256) :
    (v ||| (1 <<< PORTB5)) % 256 = v ||| 32 := by
  have h32 : (1 <<< PORTB5 : Nat) = 32 := by decide
  rw [h32]
  exact Nat.mod_eq_of_lt (Nat.or_lt_two_pow (n := 8) h (by decide))

theorem xor_mask_of_lt (v : Nat) (h : v < 256) :
    (v ^^^ (1 <<< PORTB5)) % 256 = v ^^^ 32 := by
  have h32 : (1 <<< PORTB5 : Nat) = 32 := by decide
  rw [h32]
  exact Nat.mod_eq_of_lt (Nat.xor_lt_two_pow (n := 8) h (by decide))

/-! ## Facts about the statements -/

theorem level_togglePORTB (s : State) : level (togglePORTB s) = !(level s) := by
  show ((s.PORTB ^^^ (1 <<< PORTB5)) % 256).testBit PORTB5 = !(s.PORTB.testBit PORTB5)
  rw [testBit_xor_mask]
  simp [PORTB5]

theorem isOutput_initDDRB (s : State) : isOutput (initDDRB s) = true := by
  show ((s.DDRB ||| (1 <<< PORTB5)) % 256).testBit PORTB5 = true
  rw [testBit_or_mask]
  simp [PORTB5]

theorem wf_initDDRB (s : State) (h : s.wf) : (initDDRB s).wf :=
  ⟨or_mask_lt _, h.2⟩

theorem wf_togglePORTB (s : State) (h : s.wf) : (togglePORTB s).wf :=
  ⟨h.1, Nat.mod_lt _ (by decide)⟩

/-! ## Facts about the loop -/

theorem loopAfter_zero (d : Nat) (s : State) : loopAfter d 0 s = afterInit s := rfl

theorem loopAfter_succ (d n : Nat) (s : State) :
    loopAfter d (n + 1) s = loopBody d (loopAfter d n s) := by
  simp only [loopAfter, Function.iterate_succ_apply']

theorem loopAfter_pc (d n : Nat) (s : State) : (loopAfter d n s).pc = Pc.loopTest := by
  cases n with
  | zero => rfl
  | succ n => rw [loopAfter_succ]; rfl

theorem loopAfter_regs (d n : Nat) (s : State) :
    (loopAfter d n s).regs = togglePORTB^[n] (initDDRB s) := by
  induction n with
  | zero => rfl
  | succ n ih => rw [loopAfter_succ, Function.iterate_succ_apply', ← ih]; rfl

theorem loopAfter_DDRB (d n : Nat) (s : State) :
    (loopAfter d n s).regs.DDRB = (initDDRB s).DDRB := by
  induction n with
  | zero => rfl
  | succ n ih => rw [loopAfter_succ, ← ih]; rfl

theorem loopAfter_clock (d n : Nat) (s : State) : (loopAfter d n s).clock = n * d := by
  induction n with
  | zero => simp [loopAfter_zero, afterInit, doInit, boot]
  | succ n ih =>
    rw [loopAfter_succ]
    simp only [loopBody, doDelay, doToggle, _delay_ms, ih]
    ring

theorem loopAfter_trace_succ (d n : Nat) (s : State) :
    (loopAfter d (n + 1) s).trace =
      (loopAfter d n s).trace ++
        [⟨n * d, Effect.toggle PORTB5⟩, ⟨n * d, Effect.delay d⟩] := by
  rw [loopAfter_succ]
  simp only [loopBody, doDelay, doToggle, loopAfter_clock, List.append_assoc, List.singleton_append]

theorem loopAfter_level_succ (d n : Nat) (s : State) :
    level (loopAfter d (n + 1) s).regs = !(level (loopAfter d n s).regs) := by
  rw [loopAfter_succ]
  exact level_togglePORTB _

theorem loopAfter_level (d n : Nat) (s : State) :
    level (loopAfter d n s).regs = (if n % 2 = 0 then level s else !(level s)) := by
  induction n with
  | zero => simp [loopAfter_zero, afterInit, doInit, boot, level, initDDRB]
  | succ n ih =>
    rw [loopAfter_level_succ, ih]
    rcases Nat.mod_two_eq_zero_or_one n with h | h
    · have h1 : (n + 1) % 2 = 1 := by omega
      simp [h, h1]
    · have h1 : (n + 1) % 2 = 0 := by omega
      simp [h, h1]

/-- Three statements from the loop head are one iteration of the loop. -/
theorem run_three (d : Nat) (c : Config) (h : c.pc = Pc.loopTest) :
    run d 3 c = some (loopBody d c) := by
  obtain ⟨pc, regs, clock, trace⟩ := c
  simp only at h
  subst h
  rfl

theorem run_add (d m n : Nat) (c : Config) :
    run d (m + n) c = (run d m c).bind (run d n) := by
  induction m generalizing c with
  | zero => simp [run]
  | succ m ih =>
    rw [Nat.succ_add]
    simp only [run]
    cases step d c with
    | none => rfl
    | some c1 => simpa using ih c1

/-- The small-step run reaches the loop head after the initialization and `n` iterations
in exactly `1 + 3 * n` statements. -/
theorem run_loopAfter (d n : Nat) (s : State) :
    run d (1 + 3 * n) (boot s) = some (loopAfter d n s) := by
  induction n with
  | zero => rfl
  | succ n ih =>
    have e : 1 + 3 * (n + 1) = (1 + 3 * n) + 3 := by ring
    rw [e, run_add, ih, Option.some_bind, run_three _ _ (loopAfter_pc d n s), loopAfter_succ]

theorem main_loopHead (n : Nat) (s : State) : main s (1 + 3 * n) = some (mainLoop n s) :=
  run_loopAfter 1000 n s

theorem loopAfter_effects (d n : Nat) (s : State) :
    effects (loopAfter d n s).trace =
      Effect.setOutput PORTB5 ::
        (List.replicate n [Effect.toggle PORTB5, Effect.delay d]).flatten := by
  induction n with
  | zero => rfl
  | succ n ih =>
    rw [loopAfter_trace_succ, List.replicate_succ', List.flatten_append]
    simp only [effects, List.map_append] at ih ⊢
    rw [ih]
    simp

theorem loopAfter_toggleTimes (d n : Nat) (s : State) :
    toggleTimes (loopAfter d n s).trace = (List.range n).map (fun k => k * d) := by
  induction n with
  | zero => rfl
  | succ n ih =>
    rw [loopAfter_trace_succ, List.range_succ]
    simp only [toggleTimes, List.filter_append, List.map_append] at ih ⊢
    rw [ih]
    rfl

theorem step_running (d : Nat) (c : Config) (h : Running c) :
    ∃ c1, step d c = some c1 ∧ Running c1 := by
  obtain ⟨pc, regs, clock, trace⟩ := c
  obtain ⟨hpc, hout⟩ := h
  simp only at hpc hout
  rcases hpc with h | h | h <;> subst h
  · exact ⟨_, rfl, Or.inr (Or.inl rfl), hout⟩
  · exact ⟨_, rfl, Or.inr (Or.inr rfl), hout⟩
  · exact ⟨_, rfl, Or.inl rfl, hout⟩

theorem run_running (d n : Nat) (c : Config) (h : Running c) :
    ∃ c1, run d n c = some c1 ∧ Running c1 := by
  induction n generalizing c with
  | zero => exact ⟨c, rfl, h⟩
  | succ n ih =>
    obtain ⟨c1, h1, r1⟩ := step_running d c h
    obtain ⟨c2, h2, r2⟩ := ih c1 r1
    exact ⟨c2, by simp [run, h1, h2], r2⟩

theorem running_afterInit (s : State) : Running (afterInit s) :=
  ⟨Or.inl rfl, isOutput_initDDRB s⟩

/-- After the first statement every run is inside the loop with the pin an output. -/
theorem run_succ_running (d k : Nat) (s : State) :
    ∃ c, run d (k + 1) (boot s) = some c ∧ Running c := by
  obtain ⟨c, h, r⟩ := run_running d k (afterInit s) (running_afterInit s)
  refine ⟨c, ?_, r⟩
  rw [Nat.add_comm, run_add]
  exact h

/-! ## The claims -/

/-- C1, strict alternation. Every state of `main` at the loop head is reached by the
small-step run (`1 + 3 * n` statements), one iteration from it is three statements and
leads to the next loop-head state, and the level of the pin (bit 5 of `PORTB`) after that
iteration is the negation of the level before it; hence in the sequence of levels after
`0, 1, ..., n` toggles no two neighbours are equal. -/
theorem strict_alternation (s : State) (n : Nat) :
    main s (1 + 3 * n) = some (mainLoop n s)
    ∧ run 1000 3 (mainLoop n s) = some (mainLoop (n + 1) s)
    ∧ level (mainLoop (n + 1) s).regs = !(level (mainLoop n s).regs)
    ∧ List.Chain' (fun a b => a ≠ b) (levels n s) := by
  refine ⟨main_loopHead n s, ?_, loopAfter_level_succ 1000 n s, ?_⟩
  · rw [mainLoop, mainLoop, loopAfter_succ]
    exact run_three _ _ (loopAfter_pc 1000 n s)
  · rw [levels, List.chain'_map, List.chain'_range_succ]
    intro m _
    show level (mainLoop m s).regs ≠ level (mainLoop (m + 1) s).regs
    rw [mainLoop, mainLoop, loopAfter_level_succ]
    cases level (loopAfter 1000 m s).regs <;> decide

/-- C2, direction invariant. For every initial value of the registers, bit 5 of `DDRB` is
set after the initialization and any number `n` of loop iterations; more generally it is
set in the configuration after any `k + 1` statements of `main`, so at every program point
from the initialization on. -/
theorem direction_invariant (s : State) (n k : Nat) :
    main s (1 + 3 * n) = some (mainLoop n s)
    ∧ (mainLoop n s).regs.DDRB.testBit 5 = true
    ∧ ∃ c, main s (k + 1) = some c ∧ c.regs.DDRB.testBit 5 = true := by
  refine ⟨main_loopHead n s, ?_, ?_⟩
  · rw [mainLoop, loopAfter_DDRB]
    exact isOutput_initDDRB s
  · obtain ⟨c, h, r⟩ := run_succ_running 1000 k s
    exact ⟨c, h, r.2⟩

/-- C6, initialization. For every initial value of `DDRB` and `PORTB`, the first statement
of `main` succeeds (the step is defined), and after it bit 5 of `DDRB` is 1 while `PORTB`,
and with it the level of pin 5, is what it was before; no time has passed. -/
theorem initialization (s : State) (d : Nat) :
    step d (boot s) = some (afterInit s)
    ∧ main s 1 = some (afterInit s)
    ∧ (afterInit s).regs = initDDRB s
    ∧ (afterInit s).regs.DDRB.testBit 5 = true
    ∧ (afterInit s).regs.PORTB = s.PORTB
    ∧ level (afterInit s).regs = level s
    ∧ (afterInit s).clock = 0 :=
  ⟨rfl, rfl, rfl, isOutput_initDDRB s, rfl, rfl, rfl⟩

/-- C10, initialization leaves the other direction bits alone. For every 8-bit value `v`
of `DDRB`, the value after `DDRB |= (1 << PORTB5)` is `v` with bit 5 set (`v ||| 32`),
every other bit equals that of `v`, the result is below 256, and executing the statement
a second time changes nothing. -/
theorem initialization_frame (s : State) (h : s.DDRB < 256) :
    (initDDRB s).DDRB = s.DDRB ||| 32
    ∧ (initDDRB s).DDRB.testBit 5 = true
    ∧ (∀ i, i ≠ 5 → (initDDRB s).DDRB.testBit i = s.DDRB.testBit i)
    ∧ (initDDRB s).DDRB < 256
    ∧ (initDDRB s).PORTB = s.PORTB
    ∧ initDDRB (initDDRB s) = initDDRB s := by
  have e : (initDDRB s).DDRB = s.DDRB ||| 32 := or_mask_of_lt s.DDRB h
  refine ⟨e, isOutput_initDDRB s, ?_, or_mask_lt _, rfl, ?_⟩
  · intro i hi
    rw [e, Nat.testBit_or]
    have h32 : (32 : Nat) = 2 ^ 5 := by norm_num
    rw [h32, Nat.testBit_two_pow]
    have : ¬ (5 = i) := fun h5 => hi h5.symm
    simp [this]
  · have hlt : (initDDRB s).DDRB < 256 := or_mask_lt _
    have e2 : (initDDRB (initDDRB s)).DDRB = (initDDRB s).DDRB ||| 32 :=
      or_mask_of_lt _ hlt
    have e3 : (initDDRB (initDDRB s)).DDRB = (initDDRB s).DDRB := by
      rw [e2, e, Nat.or_assoc, Nat.or_self]
    cases s with
    | mk D P =>
      simp only [initDDRB] at e3 ⊢
      rw [e3]

/-- Witness of C10 at `DDRB = 0x83`, `PORTB = 0x01`: the result is `0xA3`. -/
theorem initialization_frame_witness :
    (initDDRB ⟨0x83, 0x01⟩).DDRB = 0xA3
    ∧ (initDDRB ⟨0x83, 0x01⟩).DDRB.testBit 5 = true
    ∧ (∀ i, i ≠ 5 → (initDDRB ⟨0x83, 0x01⟩).DDRB.testBit i = (0x83 : Nat).testBit i)
    ∧ (initDDRB ⟨0x83, 0x01⟩).DDRB < 256
    ∧ (initDDRB ⟨0x83, 0x01⟩).PORTB = 0x01
    ∧ initDDRB (initDDRB ⟨0x83, 0x01⟩) = initDDRB ⟨0x83, 0x01⟩ :=
  initialization_frame ⟨0x83, 0x01⟩ (by decide)

/-- C3, scenario A. Let `L0` be the level read in the configuration right after the
direction write, at time 0 and before any delay. For every `k`, the configuration in which
the `k`-th delay has just completed is reached by `main`, its virtual clock reads
`k * 1000` ms, and the level there is `L0` when `k` is even and `NOT L0` when `k` is odd. -/
theorem scenario_A (s : State) (k : Nat) :
    main s 1 = some (afterInit s)
    ∧ (afterInit s).clock = 0
    ∧ (afterInit s).regs.DDRB.testBit 5 = true
    ∧ main s (1 + 3 * k) = some (mainLoop k s)
    ∧ (mainLoop k s).clock = k * 1000
    ∧ level (mainLoop k s).regs =
        (if k % 2 = 0 then level (afterInit s).regs else !(level (afterInit s).regs)) :=
  ⟨rfl, rfl, isOutput_initDDRB s, main_loopHead k s, loopAfter_clock 1000 k s,
    loopAfter_level 1000 k s⟩

/-- C4, effect order. One iteration of the loop appends to the trace exactly the pair
toggle of pin 5, delay of 1000 ms, in that order; the trace of `main` after the
initialization and `n` iterations is the single direction write followed by `n`
repetitions of that pair, and this is the trace of the small-step run. -/
theorem effect_order (s : State) (n : Nat) (c : Config) :
    effects (loopBody 1000 c).trace =
      effects c.trace ++ [Effect.toggle 5, Effect.delay 1000]
    ∧ main s (1 + 3 * n) = some (mainLoop n s)
    ∧ effects (mainLoop n s).trace =
        Effect.setOutput 5 :: (List.replicate n [Effect.toggle 5, Effect.delay 1000]).flatten
    ∧ effects ((mainLoop n s).trace.drop (afterInit s).trace.length) =
        (List.replicate n [Effect.toggle 5, Effect.delay 1000]).flatten := by
  have h := loopAfter_effects 1000 n s
  refine ⟨?_, main_loopHead n s, h, ?_⟩
  · simp [effects, loopBody, doDelay, doToggle, PORTB5]
  · have hl : (afterInit s).trace.length = 1 := rfl
    rw [hl]
    simp only [effects, mainLoop, List.map_drop] at h ⊢
    rw [h]
    rfl

/-- C5, frame of an iteration. For every configuration and delay argument an iteration of
the loop leaves `DDRB` and the seven bits of `PORTB` other than bit 5 unchanged; for 8-bit
initial registers the registers after `n` iterations are those after the initialization
when `n` is even and those with bit 5 of `PORTB` flipped when `n` is odd. -/
theorem iteration_frame (c : Config) (d : Nat) (s : State) (n : Nat) (h : s.wf) :
    (loopBody d c).regs.DDRB = c.regs.DDRB
    ∧ (∀ i, i < 8 → i ≠ 5 →
        (loopBody d c).regs.PORTB.testBit i = c.regs.PORTB.testBit i)
    ∧ (mainLoop n s).regs.DDRB = (afterInit s).regs.DDRB
    ∧ (∀ i, i ≠ 5 →
        (mainLoop n s).regs.PORTB.testBit i = (afterInit s).regs.PORTB.testBit i)
    ∧ (mainLoop n s).regs.PORTB =
        (if n % 2 = 0 then (afterInit s).regs.PORTB else (afterInit s).regs.PORTB ^^^ 32) := by
  have hP : ∀ m, (mainLoop m s).regs.PORTB =
      (if m % 2 = 0 then s.PORTB else s.PORTB ^^^ 32) := by
    intro m
    induction m with
    | zero => rfl
    | succ m ih =>
      rw [mainLoop, loopAfter_succ]
      show ((mainLoop m s).regs.PORTB ^^^ (1 <<< PORTB5)) % 256 = _
      rw [ih]
      rcases Nat.mod_two_eq_zero_or_one m with hm | hm
      · have h1 : (m + 1) % 2 = 1 := by omega
        simp only [hm, h1, if_true, one_ne_zero, if_false]
        exact xor_mask_of_lt _ h.2
      · have h1 : (m + 1) % 2 = 0 := by omega
        simp only [hm, h1, if_true, one_ne_zero, if_false]
        rw [xor_mask_of_lt _ (Nat.xor_lt_two_pow (n := 8) h.2 (by decide)),
          Nat.xor_assoc, Nat.xor_self, Nat.xor_zero]
  refine ⟨rfl, ?_, loopAfter_DDRB 1000 n s, ?_, hP n⟩
  · intro i hi h5
    show ((c.regs.PORTB ^^^ (1 <<< PORTB5)) % 256).testBit i = _
    rw [testBit_xor_mask]
    simp [hi, h5]
  · intro i h5
    rw [hP n]
    show _ = s.PORTB.testBit i
    split
    · rfl
    · have h32 : (32 : Nat) = 2 ^ 5 := by norm_num
      have : ¬ (5 = i) := fun e => h5 e.symm
      rw [Nat.testBit_xor, h32, Nat.testBit_two_pow]
      simp [this]

/-- Witness of C5 at `DDRB = 0x00`, `PORTB = 0xC5`, three iterations, and the
configuration `mainLoop 1` as the arbitrary one. -/
theorem iteration_frame_witness :
    (loopBody 7 (mainLoop 1 ⟨0x00, 0xC5⟩)).regs.DDRB = (mainLoop 1 ⟨0x00, 0xC5⟩).regs.DDRB
    ∧ (∀ i, i < 8 → i ≠ 5 →
        (loopBody 7 (mainLoop 1 ⟨0x00, 0xC5⟩)).regs.PORTB.testBit i =
          (mainLoop 1 ⟨0x00, 0xC5⟩).regs.PORTB.testBit i)
    ∧ (mainLoop 3 ⟨0x00, 0xC5⟩).regs.DDRB = (afterInit ⟨0x00, 0xC5⟩).regs.DDRB
    ∧ (∀ i, i ≠ 5 →
        (mainLoop 3 ⟨0x00, 0xC5⟩).regs.PORTB.testBit i =
          (afterInit ⟨0x00, 0xC5⟩).regs.PORTB.testBit i)
    ∧ (mainLoop 3 ⟨0x00, 0xC5⟩).regs.PORTB = 0xE5 :=
  iteration_frame (mainLoop 1 ⟨0x00, 0xC5⟩) 7 ⟨0x00, 0xC5⟩ 3 (by decide)

/-- C7, scenario B. For every two delay arguments `d1`, `d2`, every initial state and every
`n`, the registers after `n` iterations are the same in the two runs; with delay argument 0
the small-step run still reaches the loop head after `n` iterations, the level flips on
each of them, exactly `n` toggles have been performed and no time has passed. -/
theorem delay_independence (d1 d2 : Nat) (s : State) (n : Nat) :
    (loopAfter d1 n s).regs = (loopAfter d2 n s).regs
    ∧ run 0 (1 + 3 * n) (boot s) = some (loopAfter 0 n s)
    ∧ level (loopAfter 0 (n + 1) s).regs = !(level (loopAfter 0 n s).regs)
    ∧ ((loopAfter 0 n s).trace.filter isToggle).length = n
    ∧ (loopAfter 0 n s).clock = 0 := by
  refine ⟨?_, run_loopAfter 0 n s, loopAfter_level_succ 0 n s, ?_, ?_⟩
  · rw [loopAfter_regs, loopAfter_regs]
  · have h := congrArg List.length (loopAfter_toggleTimes 0 n s)
    simpa [toggleTimes] using h
  · rw [loopAfter_clock]; rfl

/-- C8, liveness. The condition of the loop is the constant 1; for every amount of fuel the
run of `main` is defined, is not at the exit of `main` and can take a further step; and for
every `N` the run of `N` iterations is defined, is back at the loop head and has performed
exactly `N` toggles of the pin. -/
theorem liveness (s : State) (fuel N : Nat) :
    loopCond = 1
    ∧ (∃ c, main s fuel = some c ∧ c.pc ≠ Pc.exit ∧ (step 1000 c).isSome = true)
    ∧ main s (1 + 3 * N) = some (mainLoop N s)
    ∧ (mainLoop N s).pc = Pc.loopTest
    ∧ ((mainLoop N s).trace.filter isToggle).length = N
    ∧ (mainLoop N s).regs = togglePORTB^[N] (initDDRB s) := by
  refine ⟨rfl, ?_, main_loopHead N s, loopAfter_pc 1000 N s, ?_, loopAfter_regs 1000 N s⟩
  · cases fuel with
    | zero => exact ⟨boot s, rfl, fun e => Pc.noConfusion e, rfl⟩
    | succ k =>
      obtain ⟨c, h, r⟩ := run_succ_running 1000 k s
      obtain ⟨c1, h1, _⟩ := step_running 1000 c r
      refine ⟨c, h, ?_, by rw [h1]; rfl⟩
      rcases r.1 with e | e | e <;> rw [e] <;> decide
  · have h := congrArg List.length (loopAfter_toggleTimes 1000 N s)
    simpa [toggleTimes, mainLoop] using h

/-- C9, timing. With the virtual clock advanced only by `_delay_ms`, the toggles of the
first `n` iterations of `main` happen at the times `0, 1000, ..., (n - 1) * 1000` ms: the
toggle of index `k` (the `(k + 1)`-th one) happens at `k * 1000` ms, and each toggle
happens exactly 1000 ms after the one before it. -/
theorem toggle_timing (s : State) (n k : Nat) :
    toggleTimes (mainLoop n s).trace = (List.range n).map (fun j => j * 1000)
    ∧ (toggleTimes (mainLoop n s).trace)[k]? = (if k < n then some (k * 1000) else none)
    ∧ List.Chain' (fun a b => b = a + 1000) (toggleTimes (mainLoop n s).trace)
    ∧ main s (1 + 3 * n) = some (mainLoop n s) := by
  have h := loopAfter_toggleTimes 1000 n s
  refine ⟨h, ?_, ?_, main_loopHead n s⟩
  · rw [mainLoop, h, List.getElem?_map]
    split
    · rename_i hk
      rw [List.getElem?_range hk]; rfl
    · rename_i hk
      rw [List.getElem?_eq_none (by simpa using hk)]; rfl
  · rw [mainLoop, h, List.chain'_map]
    cases n with
    | zero => simp
    | succ m =>
      rw [List.chain'_range_succ]
      intro j _
      show (j + 1) * 1000 = j * 1000 + 1000
      ring

end AvrBlink
